import Mathlib

/-!
Verification of the core of the mark-and-sweep garbage collector in
`src/gc.c` (pool allocator, big-object allocator, sweep, mark, trigger
policy) against its natural-language specification.

The C code is shallowly embedded: each C function that a claim depends on
is translated into an executable Lean definition over explicit state.
Machine words (`size_t`) are modelled as `Nat` with an explicit `% 2 ^ 64`
where the C arithmetic can wrap.  Pointers never need their numeric values
here: pages are identified by an id (their address) and a cell by the pair
(page id, offset or index), which is faithful because distinct `malloc`
results are distinct addresses and cells of one page live at distinct
offsets.
-/

set_option maxRecDepth 4000

namespace GcC

/-! ## Size classes (`szclass`, `src/gc.c` lines 102-132, table lines 98-100) -/

/-- Direct transcription of the decision tree of `static int szclass(size_t sz)`. -/
def szclass (sz : Nat) : Nat :=
  if sz ≤ 8 then 0
  else if sz ≤ 128 then
    if sz ≤ 16 then 1
    else if sz ≤ 32 then (if sz ≤ 24 then 2 else 3)
    else if sz ≤ 64 then (if sz ≤ 48 then 4 else 5)
    else if sz ≤ 96 then 6
    else 7
  else if sz ≤ 512 then
    (if sz ≤ 256 then (if sz ≤ 192 then 8 else 9)
     else if sz ≤ 384 then 10
     else 11)
  else if sz ≤ 1024 then (if sz ≤ 768 then 12 else 13)
  else if sz ≤ 1536 then 14
  else 15

/-- The size-class table (comment at `src/gc.c` lines 98-100 and the `szc`
array in `jl_gc_init`, lines 442-443). -/
def szcTable : List Nat :=
  [8, 16, 24, 32, 48, 64, 96, 128, 192, 256, 384, 512, 768, 1024, 1536, 2048]

/-- Nominal payload size of class `k` (0 for an out-of-range index). -/
def szc (k : Nat) : Nat := szcTable.getD k 0

/-! ## Pool pages and the small-object allocator
(`add_page` lines 162-177, `pool_alloc` lines 179-188, `alloc_big`
lines 134-141, dispatch in `allocb` lines 430-438)

A page is identified by its address, modelled as an opaque id `pid`
(the value `malloc` returned); a cell of a page by the pair
`(pid, byte offset inside the page)`.  `GC_PAGE_SZ = 16384`; the page
header is the single `next` pointer, `sizeof(void*) = 8` on the 64-bit
layout that the source's `BITS64` branch describes, so `pg->data` starts
at offset 8. -/

/-- One pool (`pool_t`, lines 53-57): cell size `osize`, the list of page
ids reachable from `p->pages`, and the freelist as the list of cell
references reachable from `p->freelist` (in list order). -/
structure Pool where
  osize : Nat
  pages : List Nat
  freelist : List (Nat × Nat)
  deriving DecidableEq, Repr

/-- The cell-threading loop of `add_page` (lines 169-173): starting at
offset `v` (initially 8, i.e. `&pg->data[0]`) it visits every `osize`-th
offset while `v <= lim` where `lim = GC_PAGE_SZ - osize`, collecting the
offsets in address order.  The `0 < s` conjunct only expresses that the
pointer increment is nonzero (every pool has `osize ≥ 16`), which the C
loop needs to terminate. -/
def threadLoop (s lim v : Nat) : List Nat :=
  if _h : 0 < s ∧ v ≤ lim then v :: threadLoop s lim (v + s) else []
termination_by lim + 1 - v
decreasing_by simp_wf; omega

/-- The page record built by `add_page`: its id and the value stored into
its `next` field (as the list of page ids it then points at). -/
structure PageRec where
  pid : Nat
  next : List Nat
  deriving DecidableEq, Repr

/-- Result of `add_page`: the updated pool together with the new page
record (which the code leaves unreachable from the pool, see below). -/
structure AddPageOut where
  pool : Pool
  newPage : PageRec
  deriving DecidableEq, Repr

/-- Transcription of `add_page` (lines 162-177) on the successful
`malloc` path; `fresh` is the address of the new page.  The loop threads
the cells onto `p->freelist` front to back and then stores the old
freelist behind the last cell (`*pfl = oldfl`), so the new freelist is
the new cells in ascending offset order followed by the old freelist.
The final two statements are `pg->next = p->pages;` followed by
`p->pages = pg->next;` — the second reads back the value the first just
wrote, so `p->pages` is left unchanged. -/
def add_page (fresh : Nat) (p : Pool) : AddPageOut :=
  let offs := threadLoop p.osize (16384 - p.osize) 8
  let pg : PageRec := { pid := fresh, next := p.pages }
  { pool := { osize := p.osize
              pages := pg.next
              freelist := offs.map (fun o => (fresh, o)) ++ p.freelist }
    newPage := pg }

/-- What `pool_alloc`/`alloc_big` hand back for one allocation: the flags
word the code stored in the cell header and the number of usable payload
bytes of the cell (`osize` minus the one-word header for a pool cell;
`sz + 2*sizeof(void*)` minus the two-word `bigval_t` header, i.e. exactly
`sz`, for a big object). -/
structure AllocRec where
  flags : Nat
  payload : Nat
  deriving DecidableEq, Repr

/-- Transcription of `pool_alloc` (lines 179-188): refill from `add_page`
when the freelist is empty, then pop the head cell, zero its flags
(`v->flags = 0`) and return its payload.  The `assert(p->freelist !=
NULL)` is modelled by returning `none` when even the refilled freelist is
empty. -/
def pool_alloc (fresh : Nat) (p : Pool) : Option (AllocRec × Pool) :=
  let p1 := if p.freelist = [] then (add_page fresh p).pool else p
  match p1.freelist with
  | [] => none
  | _ :: rest =>
      some ({ flags := 0, payload := p1.osize - 8 },
            { osize := p1.osize, pages := p1.pages, freelist := rest })

/-- One node of the `big_objects` list (`bigval_t`, lines 59-75). -/
structure BigRec where
  flags : Nat
  size : Nat
  deriving DecidableEq, Repr

/-- Transcription of `alloc_big` (lines 134-141) on the successful
`malloc` path: `malloc(sz + 2*sizeof(void*))`, prepend to `big_objects`,
zero the flags, return the payload (whose usable size is exactly `sz`). -/
def alloc_big (sz : Nat) (bigs : List BigRec) : AllocRec × List BigRec :=
  ({ flags := 0, payload := sz }, { flags := 0, size := sz } :: bigs)

/-- The dispatch of `allocb` (lines 435-437), after the trigger check:
`sz > 2048` goes to `alloc_big`, anything else to
`pool_alloc(&pools[szclass(sz)])`.  `p` stands for the selected pool
`pools[szclass(sz)]` and `bigs` for `big_objects`. -/
def allocb_dispatch (sz fresh : Nat) (p : Pool) (bigs : List BigRec) :
    Option (AllocRec × Pool × List BigRec) :=
  if 2048 < sz then
    some ((alloc_big sz bigs).1, p, (alloc_big sz bigs).2)
  else
    (pool_alloc fresh p).map (fun r => (r.1, r.2, bigs))

/-! ## Collection trigger (`allocb` lines 430-438, `gc_collect` lines
423-428) -/

/-- The two counters the trigger reads (`allocd_bytes`,
`collect_interval`, lines 95-96), both of C type `size_t`. -/
structure TrigState where
  allocd_bytes : Nat
  collect_interval : Nat
  deriving DecidableEq, Repr

/-- Effect of `gc_collect` (lines 423-428) on the allocation counter:
after the mark and sweep phases it executes `allocd_bytes = 0`. -/
def gc_collect_counter (st : TrigState) : TrigState :=
  { st with allocd_bytes := 0 }

/-- The trigger and accounting of `allocb` (lines 432-434): collect when
`allocd_bytes > collect_interval`, then `allocd_bytes += sz` in `size_t`
arithmetic.  The second component counts how many times `gc_collect` was
invoked during the call. -/
def allocb_trigger (sz : Nat) (st : TrigState) : TrigState × Nat :=
  let r := if st.collect_interval < st.allocd_bytes
           then (gc_collect_counter st, 1) else (st, 0)
  ({ r.1 with allocd_bytes := (r.1.allocd_bytes + sz) % 2 ^ 64 }, r.2)

/-! ## Allocation-failure paths (claim about `OutOfMemory` handling)

Neither `alloc_big` (line 136) nor `add_page` (line 164) tests the
`malloc` result.  The models below take the `malloc` result as an
`Option` and transcribe what the code does when it is `none` (a null
page): the first dereference of the null-based pointer is a fault, not a
diagnostic abort. -/

/-- Outcome of running into the missing null check. -/
inductive GcFault
  | nullDeref
  deriving DecidableEq, Repr

/-- Transcription of `alloc_big` with an explicit `malloc` result.  On
`none` the very next statement `v->next = big_objects` stores through the
null pointer and faults; `big_objects` has not been touched at that
point, so it is returned unchanged alongside the fault. -/
def alloc_big_oom (mres : Option Nat) (sz : Nat) (bigs : List BigRec) :
    Except (GcFault × List BigRec) (AllocRec × List BigRec) :=
  match mres with
  | some _ => Except.ok (alloc_big sz bigs)
  | none => Except.error (GcFault.nullDeref, bigs)

/-- Transcription of `add_page` with an explicit `malloc` result.  On
`none` we have `pg = NULL`, `v = &pg->data[0]` = the dangling offset 8 of
the null page, and `lim = GC_PAGE_SZ - osize`.  If `8 ≤ lim` the first
loop iteration executes `*pfl = v` with `pfl = &p->freelist`, i.e. it
overwrites the pool's freelist head with the dangling cell `(0, 8)`
(page id 0 stands for the null page); the following store through
`&v->next` is the fault.  If the loop body never runs, the fault is the
later store `pg->next = p->pages` into the null page, with the pool still
unchanged (well, `*pfl = oldfl` rewrites `p->freelist` with its old
value). -/
def add_page_oom (mres : Option Nat) (p : Pool) : Except (GcFault × Pool) AddPageOut :=
  match mres with
  | some fresh => Except.ok (add_page fresh p)
  | none =>
      if 8 + p.osize ≤ 16384 then
        Except.error (GcFault.nullDeref,
          { osize := p.osize, pages := p.pages, freelist := [(0, 8)] })
      else
        Except.error (GcFault.nullDeref, p)

/-! ## Sweeping a pool (`sweep_pool` lines 190-229)

For the sweep the content of the cells matters, so here a page carries
the flags words of its cells in address order, and a cell is referenced
by `(pid, index in that order)`.  A header word is free-encoded exactly
when its `otherbits` bitfield (bits 2 and up, `gcv_isfree` line 88) is
nonzero; bit 0 is `marked`, bit 1 `finalize`. -/

/-- A page as `sweep_pool` reads it: its id and its cells' flags words. -/
structure SPage where
  pid : Nat
  cells : List Nat
  deriving DecidableEq, Repr

/-- A page as `sweep_pool` leaves it: a cell is `none` when the sweep
threaded it onto the freelist (its header now holds the link), and
`some f` when it stayed live with flags `f`. -/
structure SPageOut where
  pid : Nat
  cells : List (Option Nat)
  deriving DecidableEq, Repr

/-- A pool as `sweep_pool` reads it. -/
structure SPool where
  osize : Nat
  pages : List SPage
  freelist : List (Nat × Nat)
  deriving DecidableEq, Repr

/-- A pool as `sweep_pool` leaves it. -/
structure SPoolOut where
  osize : Nat
  pages : List SPageOut
  freelist : List (Nat × Nat)
  deriving DecidableEq, Repr

/-- `gcv_isfree(v)` (line 88): the `otherbits` field, bits 2 and above of
the flags word, is nonzero. -/
def isfree (f : Nat) : Bool := decide (4 ≤ f)

/-- The `marked` bit: bit 0 of the flags word. -/
def marked (f : Nat) : Bool := decide (f % 2 = 1)

/-- What the per-cell branch of `sweep_pool` (lines 205-213) leaves in a
cell: free or unmarked cells are threaded onto the freelist (header
becomes a link, hence `none`); marked live cells survive with
`v->marked = 0` (bit 0 cleared). -/
def sweptCell (f : Nat) : Option Nat :=
  if isfree f || !marked f then none else some (f - f % 2)

/-- Cell references the page walk appends to the freelist: index `i`
counts the cells already walked, and a cell is appended exactly when it
is free-encoded or unmarked (`gcv_isfree(v) || !v->marked`, line 207). -/
def appendsFrom (pid : Nat) : Nat → List Nat → List (Nat × Nat)
  | _, [] => []
  | i, f :: fs =>
      if isfree f || !marked f then (pid, i) :: appendsFrom pid (i + 1) fs
      else appendsFrom pid (i + 1) fs

/-- The `empty` flag of the page walk (lines 202, 205-206): it survives
the walk as 1 exactly when no cell failed `gcv_isfree`, i.e. every cell
was already free-encoded on entry. -/
def pageEmpty (cells : List Nat) : Bool := cells.all isfree

/-- The page loop of `sweep_pool` (lines 199-227): pages are walked in
list order; an `empty` page is unlinked and freed and the freelist tail
cursor is rewound past its appends (`pfl = prev_pfl`), otherwise the page
is kept with its swept cells and its appends stay.  Returns the surviving
pages and the freelist the cursor built. -/
def sweepPages : List SPage → List SPageOut × List (Nat × Nat)
  | [] => ([], [])
  | pg :: rest =>
      let r := sweepPages rest
      if pageEmpty pg.cells then r
      else ({ pid := pg.pid, cells := pg.cells.map sweptCell } :: r.1,
            appendsFrom pg.pid 0 pg.cells ++ r.2)

/-- Transcription of `sweep_pool` (lines 190-229): the freelist cursor
starts at `&p->freelist`, so the freelist on return consists exactly of
the surviving appends, terminated by the final `*pfl = NULL` (the end of
the Lean list); the old freelist is not consulted. -/
def sweep_pool (p : SPool) : SPoolOut :=
  { osize := p.osize
    pages := (sweepPages p.pages).1
    freelist := (sweepPages p.pages).2 }

/-! ## The marker (`gc_markval` lines 263-267 and its recursion)

Only the skeleton of `gc_markval` is in `src/gc.c`: the early return on
an already-marked object, setting the mark bit, and recursing into each
outbound reference.  Which references an object has is computed by the
type dispatch (lines 269-376) through runtime predicates declared in
headers that are not part of this repository, so the reference structure
is abstracted into a `children` function; every heap shape, cyclic ones
included, is some such function.  The heap has `size` objects named
`0, ..., size - 1`; the set of marked objects is the explicit state. -/

/-- A finite heap for the marker: object count and outbound references. -/
structure MarkHeap where
  size : Nat
  children : Nat → List Nat

mutual
/-- Transcription of `gc_markval` (lines 263-267): return unchanged if
`v` is marked, otherwise mark it and recurse into its children.  `fuel`
bounds the recursion depth so the function is total syntactically; the
termination theorem shows a fuel of `size + 1` never runs out.  Returns
the new marked set and the list of objects whose body was entered (in
order), for the visited-at-most-once statement. -/
def gc_markval (h : MarkHeap) : Nat → Finset Nat → Nat → Option (Finset Nat × List Nat)
  | 0, _, _ => none
  | fuel + 1, st, v =>
      if v ∈ st then some (st, [])
      else
        match markChildren h fuel (insert v st) (h.children v) with
        | none => none
        | some r => some (r.1, v :: r.2)
termination_by fuel _ _ => (fuel, 0)

/-- The per-object sequence of `GC_Markval` calls on the children. -/
def markChildren (h : MarkHeap) : Nat → Finset Nat → List Nat → Option (Finset Nat × List Nat)
  | _, st, [] => some (st, [])
  | fuel, st, c :: cs =>
      match gc_markval h fuel st c with
      | none => none
      | some r =>
          match markChildren h fuel r.1 cs with
          | none => none
          | some r2 => some (r2.1, r.2 ++ r2.2)
termination_by fuel _ l => (fuel, l.length + 1)
end

/-- Number of heap objects not yet marked. -/
def unmarkedCount (h : MarkHeap) (st : Finset Nat) : Nat :=
  ((Finset.range h.size).filter (fun v => v ∉ st)).card

/-- A heap is closed when every reference stays inside the heap. -/
def MarkHeap.Closed (h : MarkHeap) : Prop :=
  ∀ v < h.size, ∀ c ∈ h.children v, c < h.size

/-! # Theorems -/

/-- Helper: on `1 ≤ sz ≤ 2048`, `szclass sz` is an index below 16 whose
class accommodates `sz`, and every smaller index is too small for `sz`
(so `szclass sz` is the least fitting index).  Proved by walking the
decision tree. -/
lemma szclass_least :
    ∀ sz, 1 ≤ sz → sz ≤ 2048 →
      sz ≤ szc (szclass sz) ∧ szclass sz < 16 ∧ ∀ j, j < szclass sz → szc j < sz := by
  intro sz h1 h2
  unfold szclass
  split_ifs <;>
    refine ⟨by simp [szc, szcTable]; omega, by omega, ?_⟩ <;>
    (intro j hj; interval_cases j <;> simp [szc, szcTable] <;> omega)

/-- Helper: the class chosen for a small request is large enough for it. -/
lemma le_szc_szclass : ∀ sz, 1 ≤ sz → sz ≤ 2048 → sz ≤ szc (szclass sz) :=
  fun sz h1 h2 => (szclass_least sz h1 h2).1

/-- Helper: every entry of the class table is at most 2048, hence every
`szc k` is. -/
lemma szc_le_2048 : ∀ k, szc k ≤ 2048 := by
  intro k
  rcases Nat.lt_or_ge k 16 with h | h
  · revert h
    have : ∀ k < 16, szc k ≤ 2048 := by decide
    exact this k
  · unfold szc
    rw [List.getD_eq_default]
    · omega
    · simp [szcTable]
      omega

/-- C5: for every request size `sz` with `1 ≤ sz ≤ 2048`, `szclass sz` is
the least index `k` in `0..15` such that `sz ≤ class[k]` for the class
table 8, 16, 24, 32, 48, 64, 96, 128, 192, 256, 384, 512, 768, 1024,
1536, 2048; in particular `szclass 1 = 0`, `szclass 8 = 0`,
`szclass 9 = 1`, `szclass 16 = 1`, `szclass 24 = 2`, `szclass 129 = 8`
and `szclass 2048 = 15`. -/
theorem C5_szclass_least_index :
    (∀ sz, 1 ≤ sz → sz ≤ 2048 →
        szclass sz < 16 ∧ IsLeast {k | sz ≤ szc k} (szclass sz))
    ∧ szclass 1 = 0 ∧ szclass 8 = 0 ∧ szclass 9 = 1 ∧ szclass 16 = 1
    ∧ szclass 24 = 2 ∧ szclass 129 = 8 ∧ szclass 2048 = 15 := by
  refine ⟨?_, by decide, by decide, by decide, by decide, by decide, by decide, by decide⟩
  intro sz h1 h2
  obtain ⟨hmem, hlt, hmin⟩ := szclass_least sz h1 h2
  refine ⟨hlt, hmem, ?_⟩
  intro b hb
  by_contra hc
  have h3 := hmin b (by omega)
  simp only [Set.mem_setOf_eq] at hb
  omega

/-- Witness for C5 at the concrete input `sz = 129`. -/
theorem C5_witness :
    1 ≤ 129 ∧ 129 ≤ 2048 ∧
      (szclass 129 < 16 ∧ IsLeast {k | 129 ≤ szc k} (szclass 129)) :=
  ⟨by decide, by decide, C5_szclass_least_index.1 129 (by decide) (by decide)⟩

/-- C10: `szclass` is a total function of the request size alone; for
every `sz > 1536` — including every `sz > 2048` — it returns 15. -/
theorem C10_szclass_total_above_1536 :
    ∀ sz, 1536 < sz → szclass sz = 15 := by
  intro sz h
  unfold szclass
  split_ifs <;> omega

/-- Witness for C10 at the concrete input `sz = 5000 > 2048`. -/
theorem C10_witness : 1536 < 5000 ∧ szclass 5000 = 15 :=
  ⟨by decide, C10_szclass_total_above_1536 5000 (by decide)⟩

/-- Helper: prepending the start of an arithmetic progression. -/
lemma cons_map_range (v s n : Nat) :
    v :: List.map (fun k => v + s + k * s) (List.range n)
      = List.map (fun k => v + k * s) (List.range (n + 1)) := by
  rw [List.range_succ_eq_map, List.map_cons, List.map_map]
  refine congrArg₂ List.cons (by simp) ?_
  refine List.map_congr_left ?_
  intro k _
  simp only [Function.comp_apply, Nat.succ_eq_add_one]
  ring

/-- Helper: closed form of the cell-threading loop: with step `s > 0` it
produces the ascending arithmetic progression of the offsets `v + k * s`
that stay within `lim`. -/
lemma threadLoop_eq (s lim : Nat) (hs : 0 < s) :
    ∀ v, threadLoop s lim v =
      (List.range (if v ≤ lim then (lim - v) / s + 1 else 0)).map
        (fun k => v + k * s) := by
  have H : ∀ m v, lim + 1 - v ≤ m →
      threadLoop s lim v =
        (List.range (if v ≤ lim then (lim - v) / s + 1 else 0)).map
          (fun k => v + k * s) := by
    intro m
    induction m with
    | zero =>
        intro v hv
        have hvl : ¬ v ≤ lim := by omega
        rw [threadLoop.eq_def, dif_neg (by omega : ¬ (0 < s ∧ v ≤ lim)), if_neg hvl]
        simp
    | succ m ih =>
        intro v hv
        by_cases hvl : v ≤ lim
        · rw [threadLoop.eq_def, dif_pos ⟨hs, hvl⟩, if_pos hvl, ih (v + s) (by omega)]
          by_cases hvs : v + s ≤ lim
          · rw [if_pos hvs]
            have h2 : (lim - v) / s = (lim - (v + s)) / s + 1 := by
              rw [← Nat.sub_sub]
              exact Nat.div_eq_sub_div hs (by omega)
            rw [h2]
            exact cons_map_range v s ((lim - (v + s)) / s + 1)
          · rw [if_neg hvs]
            have h0 : (lim - v) / s = 0 := Nat.div_eq_of_lt (by omega)
            simp [h0, List.range_succ]
        · rw [threadLoop.eq_def, dif_neg (by omega : ¬ (0 < s ∧ v ≤ lim)), if_neg hvl]
          simp
  intro v
  exact H (lim + 1 - v) v (le_refl _)

/-- Helper: the freelist after `add_page` is the new page's cells, in
ascending offset order, followed by the old freelist; the number of new
cells is `(16384 - 8) / osize`. -/
lemma add_page_freelist (fresh : Nat) (p : Pool) (hs : 0 < p.osize) :
    (add_page fresh p).pool.freelist =
      (List.range ((16384 - 8) / p.osize)).map (fun k => (fresh, 8 + k * p.osize))
        ++ p.freelist := by
  simp only [add_page]
  rw [threadLoop_eq p.osize (16384 - p.osize) hs 8, List.map_map]
  have hcnt : (if 8 ≤ 16384 - p.osize then (16384 - p.osize - 8) / p.osize + 1 else 0)
      = (16384 - 8) / p.osize := by
    by_cases h : p.osize ≤ 16376
    · rw [if_pos (by omega)]
      have he : 16384 - p.osize - 8 = 16376 - p.osize := by omega
      have he2 : (16384 - 8 : Nat) = 16376 := by norm_num
      rw [he, he2, ← Nat.div_eq_sub_div hs h]
    · rw [if_neg (by omega)]
      symm
      apply Nat.div_eq_of_lt
      omega
  rw [hcnt]
  rfl

/-- C9: `add_page p` threads exactly `(16384 - sizeof(void*)) / p.osize`
cells of the new page onto `p.freelist`, in ascending address order
(offsets 8, 8 + osize, 8 + 2*osize, ...), and the prior freelist follows
the last new cell. -/
theorem C9_add_page_threads_cells (fresh : Nat) (p : Pool) (h : 0 < p.osize) :
    (add_page fresh p).pool.freelist =
      (List.range ((16384 - 8) / p.osize)).map (fun k => (fresh, 8 + k * p.osize))
        ++ p.freelist :=
  add_page_freelist fresh p h

/-- Witness for C9: the class-15 pool (`osize = 2056`) gets
`(16384 - 8) / 2056 = 7` cells threaded in front of its old freelist. -/
theorem C9_witness :
    0 < (2056 : Nat) ∧
      (add_page 3 ⟨2056, [], [(1, 8)]⟩).pool.freelist =
        (List.range ((16384 - 8) / 2056)).map (fun k => (3, 8 + k * 2056))
          ++ [(1, 8)] :=
  ⟨by decide, C9_add_page_threads_cells 3 ⟨2056, [], [(1, 8)]⟩ (by decide)⟩

/-- C1 (evidence of the source bug): after `add_page` on a pool whose
page list is `[5]`, the fresh page 7 has its `next` set to the old page
list, but `p->pages = pg->next` stores back the old list head, so
`p.pages` is unchanged and the new page is not an element of `p.pages`.
The claim that `p.pages` afterwards points to the new page is false. -/
theorem C1_add_page_new_page_orphaned :
    (add_page 7 ⟨16, [5], []⟩).newPage.next = [5]
    ∧ (add_page 7 ⟨16, [5], []⟩).pool.pages = [5]
    ∧ 7 ∉ (add_page 7 ⟨16, [5], []⟩).pool.pages :=
  ⟨rfl, rfl, by decide⟩

/-- C3: one `allocb` call runs `gc_collect` at most once, exactly when
the entering `allocd_bytes` exceeds `collect_interval`; the check uses
the value before accounting, and afterwards `allocd_bytes` is `sz` when a
collection ran (collection zeroes it) and the old value plus `sz` (in
`size_t` arithmetic) otherwise. -/
theorem C3_trigger_policy (sz : Nat) (st : TrigState)
    (hsz : sz < 2 ^ 64) :
    (allocb_trigger sz st).2 ≤ 1
    ∧ ((allocb_trigger sz st).2 = 1 ↔ st.collect_interval < st.allocd_bytes)
    ∧ (allocb_trigger sz st).1.allocd_bytes
        = if st.collect_interval < st.allocd_bytes then sz
          else (st.allocd_bytes + sz) % 2 ^ 64 := by
  have hsz2 : sz < 18446744073709551616 := hsz
  unfold allocb_trigger gc_collect_counter
  by_cases h : st.collect_interval < st.allocd_bytes
  · simp [h, Nat.mod_eq_of_lt hsz2]
  · simp [h]

/-- Witness for C3 at `sz = 100` on a state past the threshold. -/
theorem C3_witness :
    100 < 2 ^ 64
    ∧ ((allocb_trigger 100 ⟨9000000, 8388608⟩).2 ≤ 1
       ∧ ((allocb_trigger 100 ⟨9000000, 8388608⟩).2 = 1
            ↔ (8388608 : Nat) < 9000000)
       ∧ (allocb_trigger 100 ⟨9000000, 8388608⟩).1.allocd_bytes
           = if (8388608 : Nat) < 9000000 then 100
             else (9000000 + 100) % 2 ^ 64) :=
  ⟨by norm_num, C3_trigger_policy 100 ⟨9000000, 8388608⟩ (by norm_num)⟩

/-- C6 (evidence of the missing check): when the OS allocator fails,
`alloc_big` does not abort with a diagnostic but faults dereferencing the
null block (with `big_objects` still unchanged at the fault), and
`add_page` first overwrites `p->freelist` with a pointer into the
unmapped page — partially-linked state — before faulting. -/
theorem C6_oom_faults_without_diagnostic :
    alloc_big_oom none 4096 [] = Except.error (GcFault.nullDeref, [])
    ∧ add_page_oom none ⟨16, [5], [(5, 8)]⟩
        = Except.error (GcFault.nullDeref, ⟨16, [5], [(0, 8)]⟩)
    ∧ (⟨16, [5], [(0, 8)]⟩ : Pool).freelist ≠ (⟨16, [5], [(5, 8)]⟩ : Pool).freelist :=
  ⟨rfl, rfl, by decide⟩

/-- Helper: `add_page` keeps the pool's cell size. -/
lemma add_page_osize (fresh : Nat) (p : Pool) :
    (add_page fresh p).pool.osize = p.osize := rfl

/-- Helper: `add_page` leaves the pool's page list unchanged (this is the
`p->pages = pg->next` slip). -/
lemma add_page_pages (fresh : Nat) (p : Pool) :
    (add_page fresh p).pool.pages = p.pages := rfl

/-- Helper: with a positive cell size of at most 16376 bytes `pool_alloc`
always succeeds, handing out a cell with a zeroed flags word and
`osize - 8` payload bytes. -/
lemma pool_alloc_some (fresh : Nat) (p : Pool) (hos : 0 < p.osize)
    (hbound : p.osize ≤ 16376) :
    ∃ q, pool_alloc fresh p = some ({ flags := 0, payload := p.osize - 8 }, q) := by
  by_cases hfl : p.freelist = []
  · have hcnt : 0 < (16384 - 8) / p.osize := Nat.div_pos (by omega) hos
    rcases hr : (add_page fresh p).pool.freelist with _ | ⟨a, l⟩
    · exfalso
      rw [add_page_freelist fresh p hos] at hr
      simp [hfl] at hr
      norm_num at hcnt
      omega
    · refine ⟨⟨p.osize, p.pages, l⟩, ?_⟩
      simp only [pool_alloc, hfl, if_pos, hr, add_page_osize, add_page_pages]
  · rcases hq : p.freelist with _ | ⟨a, l⟩
    · exact absurd hq hfl
    · refine ⟨⟨p.osize, p.pages, l⟩, ?_⟩
      simp [pool_alloc, hq]

/-- C8: every allocation request `sz ≥ 1` made through the `allocb`
dispatch succeeds and returns a cell whose header flags word is zero and
whose payload capacity is at least `sz`: the nominal class size
`szc (szclass sz)` on the pool path (`sz ≤ 2048`) and exactly `sz` on the
big-object path.  The hypothesis fixes the selected pool's `osize` to the
value `jl_gc_init` gives `pools[szclass(sz)]`. -/
theorem C8_allocb_zero_header_and_capacity (sz fresh : Nat) (p : Pool)
    (bigs : List BigRec) (h1 : 1 ≤ sz) (hp : p.osize = szc (szclass sz) + 8) :
    ∃ r, (∃ rest, allocb_dispatch sz fresh p bigs = some (r, rest))
      ∧ r.flags = 0 ∧ sz ≤ r.payload
      ∧ (sz ≤ 2048 → r.payload = szc (szclass sz))
      ∧ (2048 < sz → r.payload = sz) := by
  by_cases hbig : 2048 < sz
  · refine ⟨(alloc_big sz bigs).1, ⟨(p, (alloc_big sz bigs).2), ?_⟩, rfl,
      Nat.le_refl sz, fun h => absurd h (by omega), fun _ => rfl⟩
    unfold allocb_dispatch
    rw [if_pos hbig]
  · have h2 : sz ≤ 2048 := by omega
    have hle := le_szc_szclass sz h1 h2
    have hos : 0 < p.osize := by omega
    have hbound : p.osize ≤ 16376 := by
      have := szc_le_2048 (szclass sz)
      omega
    obtain ⟨q, hq⟩ := pool_alloc_some fresh p hos hbound
    refine ⟨{ flags := 0, payload := p.osize - 8 }, ⟨(q, bigs), ?_⟩, rfl, ?_, ?_,
      fun h => absurd h hbig⟩
    · unfold allocb_dispatch
      rw [if_neg hbig, hq]
      rfl
    · show sz ≤ p.osize - 8
      omega
    · intro _
      show p.osize - 8 = szc (szclass sz)
      omega

/-- Witness for C8: a 24-byte request served from the class-2 pool
(`osize = 24 + 8 = 32`). -/
theorem C8_witness :
    1 ≤ 24 ∧ (⟨32, [], []⟩ : Pool).osize = szc (szclass 24) + 8
    ∧ ∃ r, (∃ rest, allocb_dispatch 24 3 ⟨32, [], []⟩ [] = some (r, rest))
        ∧ r.flags = 0 ∧ 24 ≤ r.payload
        ∧ (24 ≤ 2048 → r.payload = szc (szclass 24))
        ∧ (2048 < 24 → r.payload = 24) :=
  ⟨by decide, by decide,
    C8_allocb_zero_header_and_capacity 24 3 ⟨32, [], []⟩ [] (by decide) (by decide)⟩

/-- Helper: a cell qualifies for the freelist iff it is free-encoded or
unmarked (the `gcv_isfree(v) || !v->marked` test). -/
lemma free_or_unmarked_iff (f : Nat) :
    (isfree f || !marked f) = true ↔ (isfree f = true ∨ marked f = false) := by
  cases hf : isfree f <;> cases hm : marked f <;> simp

/-- Helper: a surviving swept cell has its mark bit cleared. -/
lemma sweptCell_some (f0 f : Nat) (h : sweptCell f0 = some f) : f % 2 = 0 := by
  unfold sweptCell at h
  split at h
  · exact absurd h (by simp)
  · have hf : f = f0 - f0 % 2 := by
      injection h
      omega
    have := Nat.mod_two_eq_zero_or_one f0
    omega

/-- Helper: every reference produced by the append walk carries the
page's id and an index inside the page. -/
lemma appendsFrom_mem (pid : Nat) :
    ∀ i fs (r : Nat × Nat), r ∈ appendsFrom pid i fs →
      r.1 = pid ∧ i ≤ r.2 ∧ r.2 < i + fs.length := by
  intro i fs
  induction fs generalizing i with
  | nil =>
      intro r hr
      simp [appendsFrom] at hr
  | cons f fs ih =>
      intro r hr
      simp only [appendsFrom] at hr
      split at hr
      · rcases List.mem_cons.mp hr with h | h
        · subst h
          refine ⟨rfl, Nat.le_refl i, ?_⟩
          simp only [List.length_cons]
          omega
        · obtain ⟨h1, h2, h3⟩ := ih (i + 1) r h
          refine ⟨h1, by omega, ?_⟩
          simp only [List.length_cons]
          omega
      · obtain ⟨h1, h2, h3⟩ := ih (i + 1) r hr
        refine ⟨h1, by omega, ?_⟩
        simp only [List.length_cons]
        omega

/-- Helper: the append walk never produces a reference twice. -/
lemma appendsFrom_nodup (pid : Nat) : ∀ i fs, (appendsFrom pid i fs).Nodup := by
  intro i fs
  induction fs generalizing i with
  | nil => simp [appendsFrom]
  | cons f fs ih =>
      simp only [appendsFrom]
      split
      · refine List.nodup_cons.mpr ⟨?_, ih (i + 1)⟩
        intro hmem
        obtain ⟨_, h2, _⟩ := appendsFrom_mem pid (i + 1) fs _ hmem
        omega
      · exact ih (i + 1)

/-- Helper: a qualifying cell at index `j` is on the append walk's list. -/
lemma appendsFrom_mem_of_get (pid : Nat) :
    ∀ i fs j f, fs.get? j = some f → (isfree f || !marked f) = true →
      (pid, i + j) ∈ appendsFrom pid i fs := by
  intro i fs
  induction fs generalizing i with
  | nil =>
      intro j f h
      simp [List.get?] at h
  | cons g fs ih =>
      intro j f hget hc
      cases j with
      | zero =>
          simp [List.get?] at hget
          subst hget
          simp only [appendsFrom]
          rw [if_pos hc]
          simp
      | succ j =>
          simp [List.get?] at hget
          have hmem := ih (i + 1) j f (by simpa using hget) hc
          have heq : i + (j + 1) = (i + 1) + j := by omega
          simp only [appendsFrom]
          split
          · exact List.mem_cons_of_mem _ (heq ▸ hmem)
          · exact heq ▸ hmem

/-- Helper: equation of the page loop on a page that is freed. -/
lemma sweepPages_cons_empty (pg : SPage) (rest : List SPage)
    (h : pageEmpty pg.cells = true) :
    sweepPages (pg :: rest) = sweepPages rest := by
  simp [sweepPages, h]

/-- Helper: equation of the page loop on a page that survives. -/
lemma sweepPages_cons_keep (pg : SPage) (rest : List SPage)
    (h : ¬ pageEmpty pg.cells = true) :
    sweepPages (pg :: rest)
      = (⟨pg.pid, pg.cells.map sweptCell⟩ :: (sweepPages rest).1,
         appendsFrom pg.pid 0 pg.cells ++ (sweepPages rest).2) := by
  simp [sweepPages, h]

/-- Helper: surviving pages' ids all come from the input page list. -/
lemma sweepPages_pid_sub :
    ∀ l (pg : SPageOut), pg ∈ (sweepPages l).1 → pg.pid ∈ l.map SPage.pid := by
  intro l
  induction l with
  | nil =>
      intro pg hpg
      simp [sweepPages] at hpg
  | cons hd rest ih =>
      intro pg hpg
      by_cases he : pageEmpty hd.cells = true
      · rw [sweepPages_cons_empty hd rest he] at hpg
        simp only [List.map_cons]
        exact List.mem_cons_of_mem _ (ih pg hpg)
      · rw [sweepPages_cons_keep hd rest he] at hpg
        rcases List.mem_cons.mp hpg with h | h
        · subst h
          simp
        · simp only [List.map_cons]
          exact List.mem_cons_of_mem _ (ih pg h)

/-- Helper: every reference on the rebuilt freelist points into a
surviving page, at an index inside that page. -/
lemma sweepPages_freelist_mem :
    ∀ l (r : Nat × Nat), r ∈ (sweepPages l).2 →
      ∃ pg, pg ∈ (sweepPages l).1 ∧ r.1 = pg.pid ∧ r.2 < pg.cells.length := by
  intro l
  induction l with
  | nil =>
      intro r hr
      simp [sweepPages] at hr
  | cons hd rest ih =>
      intro r hr
      by_cases he : pageEmpty hd.cells = true
      · rw [sweepPages_cons_empty hd rest he] at hr
        obtain ⟨pg, h1, h2, h3⟩ := ih r hr
        exact ⟨pg, by rw [sweepPages_cons_empty hd rest he]; exact h1, h2, h3⟩
      · rw [sweepPages_cons_keep hd rest he] at hr
        rcases List.mem_append.mp hr with h | h
        · obtain ⟨h1, h2, h3⟩ := appendsFrom_mem hd.pid 0 hd.cells r h
          refine ⟨⟨hd.pid, hd.cells.map sweptCell⟩, ?_, h1, ?_⟩
          · rw [sweepPages_cons_keep hd rest he]
            exact List.mem_cons_self _ _
          · simpa using h3
        · obtain ⟨pg, h1, h2, h3⟩ := ih r h
          refine ⟨pg, ?_, h2, h3⟩
          rw [sweepPages_cons_keep hd rest he]
          exact List.mem_cons_of_mem _ h1

/-- Helper: with distinct page ids the rebuilt freelist has no duplicate
cell reference. -/
lemma sweepPages_freelist_nodup :
    ∀ l, (l.map SPage.pid).Nodup → (sweepPages l).2.Nodup := by
  intro l
  induction l with
  | nil =>
      intro _
      simp [sweepPages]
  | cons hd rest ih =>
      intro hno
      rw [List.map_cons] at hno
      obtain ⟨hhd, hrest⟩ := List.nodup_cons.mp hno
      by_cases he : pageEmpty hd.cells = true
      · rw [sweepPages_cons_empty hd rest he]
        exact ih hrest
      · rw [sweepPages_cons_keep hd rest he]
        refine List.Nodup.append (appendsFrom_nodup hd.pid 0 hd.cells) (ih hrest) ?_
        intro r hr1 hr2
        obtain ⟨h1, _, _⟩ := appendsFrom_mem hd.pid 0 hd.cells r hr1
        obtain ⟨pg, hpg, h2, _⟩ := sweepPages_freelist_mem rest r hr2
        apply hhd
        rw [← h1, h2]
        exact sweepPages_pid_sub rest pg hpg

/-- Helper: a page all of whose cells are free-encoded at sweep entry is
dropped: its id does not survive and none of its cells reach the rebuilt
freelist. -/
lemma sweepPages_empty_dropped :
    ∀ l (pgIn : SPage), (l.map SPage.pid).Nodup → pgIn ∈ l →
      pageEmpty pgIn.cells = true →
      pgIn.pid ∉ (sweepPages l).1.map SPageOut.pid
      ∧ ∀ j, (pgIn.pid, j) ∉ (sweepPages l).2 := by
  intro l
  induction l with
  | nil =>
      intro pgIn _ hmem
      simp at hmem
  | cons hd rest ih =>
      intro pgIn hno hmem hempty
      rw [List.map_cons] at hno
      obtain ⟨hhd, hrest⟩ := List.nodup_cons.mp hno
      rcases List.mem_cons.mp hmem with hcase | hcase
      · subst hcase
        rw [sweepPages_cons_empty pgIn rest hempty]
        constructor
        · intro hin
          obtain ⟨pg, hpg, hpid⟩ := List.mem_map.mp hin
          apply hhd
          rw [← hpid]
          exact sweepPages_pid_sub rest pg hpg
        · intro j hin
          obtain ⟨pg, hpg, h2, _⟩ := sweepPages_freelist_mem rest _ hin
          apply hhd
          have h2b : pgIn.pid = pg.pid := h2
          rw [h2b]
          exact sweepPages_pid_sub rest pg hpg
      · have hne : pgIn.pid ≠ hd.pid := by
          intro h
          apply hhd
          rw [← h]
          exact List.mem_map_of_mem SPage.pid hcase
        obtain ⟨ih1, ih2⟩ := ih pgIn hrest hcase hempty
        by_cases he : pageEmpty hd.cells = true
        · rw [sweepPages_cons_empty hd rest he]
          exact ⟨ih1, ih2⟩
        · rw [sweepPages_cons_keep hd rest he]
          constructor
          · intro hin
            simp only [List.map_cons] at hin
            rcases List.mem_cons.mp hin with h | h
            · exact hne h
            · exact ih1 h
          · intro j hin
            rcases List.mem_append.mp hin with h | h
            · obtain ⟨h1, _, _⟩ := appendsFrom_mem hd.pid 0 hd.cells _ h
              exact hne h1
            · exact ih2 j h

/-- Helper: a qualifying (free or unmarked) cell of a page that is not
freed ends up on the rebuilt freelist. -/
lemma sweepPages_mem_freelist :
    ∀ l (pgIn : SPage), pgIn ∈ l → ¬ pageEmpty pgIn.cells = true →
      ∀ j f, pgIn.cells.get? j = some f → (isfree f || !marked f) = true →
        (pgIn.pid, j) ∈ (sweepPages l).2 := by
  intro l
  induction l with
  | nil =>
      intro pgIn hmem
      simp at hmem
  | cons hd rest ih =>
      intro pgIn hmem hne j f hget hc
      rcases List.mem_cons.mp hmem with hcase | hcase
      · subst hcase
        rw [sweepPages_cons_keep pgIn rest hne]
        refine List.mem_append_left _ ?_
        have := appendsFrom_mem_of_get pgIn.pid 0 pgIn.cells j f hget hc
        simpa using this
      · have hmem2 := ih pgIn hcase hne j f hget hc
        by_cases he : pageEmpty hd.cells = true
        · rw [sweepPages_cons_empty hd rest he]
          exact hmem2
        · rw [sweepPages_cons_keep hd rest he]
          exact List.mem_append_right _ hmem2

/-- Helper: cells of surviving pages that still hold a flags word are
survivors with the mark bit cleared. -/
lemma sweepPages_out_cells :
    ∀ l (pg : SPageOut), pg ∈ (sweepPages l).1 →
      ∀ c ∈ pg.cells, ∀ f, c = some f → f % 2 = 0 := by
  intro l
  induction l with
  | nil =>
      intro pg hpg
      simp [sweepPages] at hpg
  | cons hd rest ih =>
      intro pg hpg c hc f hf
      by_cases he : pageEmpty hd.cells = true
      · rw [sweepPages_cons_empty hd rest he] at hpg
        exact ih pg hpg c hc f hf
      · rw [sweepPages_cons_keep hd rest he] at hpg
        rcases List.mem_cons.mp hpg with h | h
        · subst h
          obtain ⟨f0, hf0mem, hf0⟩ := List.mem_map.mp hc
          exact sweptCell_some f0 f (hf0.trans hf)
        · exact ih pg h c hc f hf

/-- C2 counterexample: a pool with one page whose only cell is garbage
(flags 0: live encoding, unmarked).  Every cell of the page is free or
garbage, yet `sweep_pool` keeps the page in `p.pages` and puts the cell
on the resulting freelist — the page is not removed or released, contrary
to the claim. -/
theorem C2_counterexample :
    (∀ pg ∈ ({ osize := 16, pages := [⟨1, [0]⟩], freelist := [] } : SPool).pages,
       ∀ f ∈ pg.cells, isfree f = true ∨ marked f = false)
    ∧ (sweep_pool ⟨16, [⟨1, [0]⟩], []⟩).pages ≠ []
    ∧ (1, 0) ∈ (sweep_pool ⟨16, [⟨1, [0]⟩], []⟩).freelist := by
  decide

/-- C2 (amended): `sweep_pool` removes, and releases to the OS, exactly
those pages all of whose cells are free-encoded at the start of the
sweep; such a page's cells are kept off the resulting freelist (the tail
rewind).  A page containing a garbage (live-but-unmarked) cell is
retained this cycle, with its garbage cells appended to the freelist. -/
theorem C2_amended_whole_page_reclamation (p : SPool) (pgIn : SPage)
    (hno : (p.pages.map SPage.pid).Nodup) (hmem : pgIn ∈ p.pages)
    (hfree : ∀ f ∈ pgIn.cells, isfree f = true) :
    pgIn.pid ∉ (sweep_pool p).pages.map SPageOut.pid
    ∧ ∀ j, (pgIn.pid, j) ∉ (sweep_pool p).freelist := by
  have he : pageEmpty pgIn.cells = true := List.all_eq_true.mpr hfree
  exact sweepPages_empty_dropped p.pages pgIn hno hmem he

/-- Witness for the amended C2: page 1 holds only free-encoded cells and
is dropped with no trace on the freelist; page 2 is live and stays. -/
theorem C2_witness :
    ((([⟨1, [4, 8]⟩, ⟨2, [1]⟩] : List SPage).map SPage.pid).Nodup
     ∧ (⟨1, [4, 8]⟩ : SPage) ∈ ([⟨1, [4, 8]⟩, ⟨2, [1]⟩] : List SPage)
     ∧ ∀ f ∈ (⟨1, [4, 8]⟩ : SPage).cells, isfree f = true)
    ∧ ((1 : Nat) ∉ (sweep_pool ⟨16, [⟨1, [4, 8]⟩, ⟨2, [1]⟩], [(7, 7)]⟩).pages.map
          SPageOut.pid
       ∧ ∀ j, ((1 : Nat), j) ∉
           (sweep_pool ⟨16, [⟨1, [4, 8]⟩, ⟨2, [1]⟩], [(7, 7)]⟩).freelist) :=
  ⟨⟨by decide, by decide, by decide⟩,
    C2_amended_whole_page_reclamation ⟨16, [⟨1, [4, 8]⟩, ⟨2, [1]⟩], [(7, 7)]⟩
      ⟨1, [4, 8]⟩ (by decide) (by decide) (by decide)⟩

/-- C4: invariants of `sweep_pool` (for a pool whose pages have distinct
addresses): every freelist reference lies in a surviving page at a valid
index; every cell still holding a flags word in a surviving page has its
mark bit cleared; the rebuilt freelist has no duplicates (and, being a
Lean list, is null-terminated); and every cell that was free-encoded or
garbage at sweep entry in a surviving page is on the freelist exactly
once. -/
theorem C4_sweep_pool_invariants (p : SPool)
    (hno : (p.pages.map SPage.pid).Nodup) :
    (∀ r ∈ (sweep_pool p).freelist,
       ∃ pg, pg ∈ (sweep_pool p).pages ∧ r.1 = pg.pid ∧ r.2 < pg.cells.length)
    ∧ (∀ pg ∈ (sweep_pool p).pages, ∀ c ∈ pg.cells, ∀ f, c = some f → f % 2 = 0)
    ∧ (sweep_pool p).freelist.Nodup
    ∧ (∀ pgIn ∈ p.pages, pgIn.pid ∈ (sweep_pool p).pages.map SPageOut.pid →
        ∀ j f, pgIn.cells.get? j = some f →
          (isfree f = true ∨ marked f = false) →
          @List.count (Nat × Nat) instBEqOfDecidableEq (pgIn.pid, j)
            (sweep_pool p).freelist = 1) := by
  refine ⟨sweepPages_freelist_mem p.pages, sweepPages_out_cells p.pages,
    sweepPages_freelist_nodup p.pages hno, ?_⟩
  intro pgIn hmem hsurv j f hget hcond
  by_cases he : pageEmpty pgIn.cells = true
  · exact absurd hsurv (sweepPages_empty_dropped p.pages pgIn hno hmem he).1
  · have hm := sweepPages_mem_freelist p.pages pgIn hmem he j f hget
      ((free_or_unmarked_iff f).mpr hcond)
    exact List.count_eq_one_of_mem (sweepPages_freelist_nodup p.pages hno) hm

/-- Witness for C4 on a two-page pool: page 1 keeps its marked cell
(cleared) and contributes its garbage and free cells to the freelist,
page 2 is all free and is dropped. -/
theorem C4_witness :
    ((([⟨1, [1, 0, 5]⟩, ⟨2, [4, 9]⟩] : List SPage).map SPage.pid).Nodup)
    ∧ ((∀ r ∈ (sweep_pool ⟨16, [⟨1, [1, 0, 5]⟩, ⟨2, [4, 9]⟩], [(9, 9)]⟩).freelist,
          ∃ pg, pg ∈ (sweep_pool ⟨16, [⟨1, [1, 0, 5]⟩, ⟨2, [4, 9]⟩], [(9, 9)]⟩).pages
            ∧ r.1 = pg.pid ∧ r.2 < pg.cells.length)
       ∧ (∀ pg ∈ (sweep_pool ⟨16, [⟨1, [1, 0, 5]⟩, ⟨2, [4, 9]⟩], [(9, 9)]⟩).pages,
            ∀ c ∈ pg.cells, ∀ f, c = some f → f % 2 = 0)
       ∧ (sweep_pool ⟨16, [⟨1, [1, 0, 5]⟩, ⟨2, [4, 9]⟩], [(9, 9)]⟩).freelist.Nodup
       ∧ (∀ pgIn ∈ ([⟨1, [1, 0, 5]⟩, ⟨2, [4, 9]⟩] : List SPage),
            pgIn.pid ∈ (sweep_pool ⟨16, [⟨1, [1, 0, 5]⟩, ⟨2, [4, 9]⟩], [(9, 9)]⟩).pages.map
              SPageOut.pid →
            ∀ j f, pgIn.cells.get? j = some f →
              (isfree f = true ∨ marked f = false) →
              @List.count (Nat × Nat) instBEqOfDecidableEq (pgIn.pid, j)
                (sweep_pool ⟨16, [⟨1, [1, 0, 5]⟩, ⟨2, [4, 9]⟩], [(9, 9)]⟩).freelist
                = 1)) :=
  ⟨by decide, C4_sweep_pool_invariants ⟨16, [⟨1, [1, 0, 5]⟩, ⟨2, [4, 9]⟩], [(9, 9)]⟩
      (by decide)⟩

/-- Helper: joint bookkeeping invariant of the marker and its child loop:
on success the marked set only grows, it grows by exactly the objects
whose body was entered, no object is entered twice, and only previously
unmarked objects are entered. -/
lemma markval_spec (h : MarkHeap) : ∀ fuel,
    (∀ st v st2 vs, gc_markval h fuel st v = some (st2, vs) →
       st ⊆ st2 ∧ st2 = st ∪ vs.toFinset ∧ vs.Nodup ∧ ∀ x ∈ vs, x ∉ st)
    ∧ (∀ st l st2 vs, markChildren h fuel st l = some (st2, vs) →
       st ⊆ st2 ∧ st2 = st ∪ vs.toFinset ∧ vs.Nodup ∧ ∀ x ∈ vs, x ∉ st) := by
  intro fuel
  induction fuel with
  | zero =>
      constructor
      · intro st v st2 vs heq
        simp [gc_markval] at heq
      · intro st l st2 vs heq
        cases l with
        | nil =>
            simp only [markChildren, Option.some.injEq, Prod.mk.injEq] at heq
            obtain ⟨h1, h2⟩ := heq
            subst h1
            subst h2
            exact ⟨Finset.Subset.refl st, by simp, List.nodup_nil, by simp⟩
        | cons c cs =>
            simp [markChildren, gc_markval] at heq
  | succ fuel ih =>
      have hg : ∀ st v st2 vs, gc_markval h (fuel + 1) st v = some (st2, vs) →
          st ⊆ st2 ∧ st2 = st ∪ vs.toFinset ∧ vs.Nodup ∧ ∀ x ∈ vs, x ∉ st := by
        intro st v st2 vs heq
        simp only [gc_markval] at heq
        by_cases hv : v ∈ st
        · rw [if_pos hv] at heq
          simp only [Option.some.injEq, Prod.mk.injEq] at heq
          obtain ⟨h1, h2⟩ := heq
          subst h1
          subst h2
          exact ⟨Finset.Subset.refl st, by simp, List.nodup_nil, by simp⟩
        · rw [if_neg hv] at heq
          cases hm : markChildren h fuel (insert v st) (h.children v) with
          | none =>
              rw [hm] at heq
              simp at heq
          | some r =>
              rw [hm] at heq
              simp only [Option.some.injEq, Prod.mk.injEq] at heq
              obtain ⟨h1, h2⟩ := heq
              subst h1
              subst h2
              obtain ⟨hsub, hunion, hnd, hnew⟩ := (ih.2) (insert v st) (h.children v) r.1 r.2 hm
              refine ⟨?_, ?_, ?_, ?_⟩
              · exact fun x hx => hsub (Finset.mem_insert_of_mem hx)
              · rw [hunion]
                ext x
                simp only [Finset.mem_union, Finset.mem_insert, List.toFinset_cons,
                  List.mem_toFinset]
                tauto
              · refine List.nodup_cons.mpr ⟨?_, hnd⟩
                intro hvmem
                exact (hnew v hvmem) (Finset.mem_insert_self v st)
              · intro x hx
                rcases List.mem_cons.mp hx with hcase | hcase
                · subst hcase
                  exact hv
                · intro hxst
                  exact (hnew x hcase) (Finset.mem_insert_of_mem hxst)
      refine ⟨hg, ?_⟩
      intro st l
      induction l generalizing st with
      | nil =>
          intro st2 vs heq
          simp only [markChildren, Option.some.injEq, Prod.mk.injEq] at heq
          obtain ⟨h1, h2⟩ := heq
          subst h1
          subst h2
          exact ⟨Finset.Subset.refl st, by simp, List.nodup_nil, by simp⟩
      | cons c cs ihl =>
          intro st2 vs heq
          simp only [markChildren] at heq
          split at heq
          · exact absurd heq (by simp)
          · rename_i r1 hm1
            split at heq
            · exact absurd heq (by simp)
            · rename_i r2 hm2
              simp only [Option.some.injEq, Prod.mk.injEq] at heq
              obtain ⟨h1, h2⟩ := heq
              subst h1
              subst h2
              obtain ⟨hsub1, hun1, hnd1, hnew1⟩ := hg st c r1.1 r1.2 hm1
              obtain ⟨hsub2, hun2, hnd2, hnew2⟩ := ihl r1.1 r2.1 r2.2 hm2
              refine ⟨fun x hx => hsub2 (hsub1 hx), ?_, ?_, ?_⟩
              · rw [hun2, hun1]
                ext x
                simp only [Finset.mem_union, List.toFinset_append, List.mem_toFinset]
                tauto
              · refine List.Nodup.append hnd1 hnd2 ?_
                intro x hx1 hx2
                apply hnew2 x hx2
                rw [hun1]
                exact Finset.mem_union_right st (List.mem_toFinset.mpr hx1)
              · intro x hx
                rcases List.mem_append.mp hx with hcase | hcase
                · exact hnew1 x hcase
                · intro hxst
                  exact (hnew2 x hcase) (hsub1 hxst)

/-- Helper: a superset of marks leaves no more objects unmarked. -/
lemma unmarkedCount_mono (h : MarkHeap) {st st2 : Finset Nat} (hsub : st ⊆ st2) :
    unmarkedCount h st2 ≤ unmarkedCount h st := by
  unfold unmarkedCount
  apply Finset.card_le_card
  intro x hx
  rw [Finset.mem_filter] at hx ⊢
  exact ⟨hx.1, fun hmem => hx.2 (hsub hmem)⟩

/-- Helper: marking an unmarked heap object strictly shrinks the number
of unmarked objects. -/
lemma unmarkedCount_insert (h : MarkHeap) {st : Finset Nat} {v : Nat}
    (hv : v < h.size) (hvst : v ∉ st) :
    unmarkedCount h (insert v st) < unmarkedCount h st := by
  unfold unmarkedCount
  apply Finset.card_lt_card
  constructor
  · intro x hx
    rw [Finset.mem_filter] at hx ⊢
    exact ⟨hx.1, fun hmem => hx.2 (Finset.mem_insert_of_mem hmem)⟩
  · intro hsub
    have hvmem : v ∈ (Finset.range h.size).filter (fun x => x ∉ st) := by
      rw [Finset.mem_filter]
      exact ⟨Finset.mem_range.mpr hv, hvst⟩
    have := hsub hvmem
    rw [Finset.mem_filter] at this
    exact this.2 (Finset.mem_insert_self v st)

/-- Helper: the marker cannot run out of fuel as long as the fuel
exceeds the number of unmarked heap objects — on any closed heap,
cyclic reference graphs included. -/
lemma markval_total (h : MarkHeap) (hc : h.Closed) : ∀ fuel,
    (∀ st v, v < h.size → unmarkedCount h st < fuel →
       (gc_markval h fuel st v).isSome)
    ∧ (∀ st l, (∀ c ∈ l, c < h.size) → unmarkedCount h st < fuel →
       (markChildren h fuel st l).isSome) := by
  intro fuel
  induction fuel with
  | zero =>
      exact ⟨fun st v _ hf => absurd hf (by omega),
             fun st l _ hf => absurd hf (by omega)⟩
  | succ fuel ih =>
      have hg : ∀ st v, v < h.size → unmarkedCount h st < fuel + 1 →
          (gc_markval h (fuel + 1) st v).isSome := by
        intro st v hv hf
        simp only [gc_markval]
        by_cases hvst : v ∈ st
        · rw [if_pos hvst]
          simp
        · rw [if_neg hvst]
          have hlt : unmarkedCount h (insert v st) < fuel := by
            have := unmarkedCount_insert h hv hvst
            omega
          have hms := ih.2 (insert v st) (h.children v) (hc v hv) hlt
          cases hm : markChildren h fuel (insert v st) (h.children v) with
          | none =>
              rw [hm] at hms
              simp at hms
          | some r => simp [hm]
      refine ⟨hg, ?_⟩
      intro st l
      induction l generalizing st with
      | nil =>
          intro _ _
          simp [markChildren]
      | cons c cs ihl =>
          intro hcl hf
          simp only [markChildren]
          have hs1 := hg st c (hcl c (List.mem_cons_self c cs)) hf
          split
          · rename_i hm1
            rw [hm1] at hs1
            simp at hs1
          · rename_i r1 hm1
            have hsub := ((markval_spec h (fuel + 1)).1 st c r1.1 r1.2 hm1).1
            have hf2 : unmarkedCount h r1.1 < fuel + 1 :=
              Nat.lt_of_le_of_lt (unmarkedCount_mono h hsub) hf
            have hs2 := ihl r1.1 (fun x hx => hcl x (List.mem_cons_of_mem c hx)) hf2
            split
            · rename_i hm2
              rw [hm2] at hs2
              simp at hs2
            · simp

/-- C7: on every finite closed heap — cyclic reference graphs included —
`gc_markval` with fuel `size + 1` never exhausts its fuel (the recursion
terminates), it returns immediately when the start object is already
marked, and the list of objects whose body is entered has no duplicates
and contains only objects unmarked at entry: no object is visited more
than once per mark phase. -/
theorem C7_gc_markval_terminates_on_cycles (h : MarkHeap) (hc : h.Closed)
    (st : Finset Nat) (v : Nat) (hv : v < h.size) :
    (∃ st2 vs, gc_markval h (h.size + 1) st v = some (st2, vs)
       ∧ vs.Nodup ∧ ∀ x ∈ vs, x ∉ st)
    ∧ (v ∈ st → gc_markval h (h.size + 1) st v = some (st, [])) := by
  have hucle : unmarkedCount h st ≤ h.size := by
    unfold unmarkedCount
    calc ((Finset.range h.size).filter (fun x => x ∉ st)).card
        ≤ (Finset.range h.size).card := Finset.card_filter_le _ _
      _ = h.size := Finset.card_range h.size
  have hsome := (markval_total h hc (h.size + 1)).1 st v hv (by omega)
  constructor
  · cases heq : gc_markval h (h.size + 1) st v with
    | none =>
        rw [heq] at hsome
        simp at hsome
    | some r =>
        obtain ⟨st2, vs⟩ := r
        obtain ⟨_, _, hnd, hnew⟩ := (markval_spec h (h.size + 1)).1 st v st2 vs heq
        exact ⟨st2, vs, rfl, hnd, hnew⟩
  · intro hvst
    cases hsz : h.size with
    | zero => omega
    | succ n =>
        simp [gc_markval, hvst]

/-- Witness for C7: the two-object cycle A → B → A, marked from A with an
empty mark set. -/
theorem C7_witness :
    MarkHeap.Closed ⟨2, fun v => if v = 0 then [1] else [0]⟩
    ∧ 0 < (⟨2, fun v => if v = 0 then [1] else [0]⟩ : MarkHeap).size
    ∧ ((∃ st2 vs,
          gc_markval ⟨2, fun v => if v = 0 then [1] else [0]⟩
              ((⟨2, fun v => if v = 0 then [1] else [0]⟩ : MarkHeap).size + 1)
              ∅ 0
            = some (st2, vs)
          ∧ vs.Nodup ∧ ∀ x ∈ vs, x ∉ (∅ : Finset Nat))
       ∧ (0 ∈ (∅ : Finset Nat) →
          gc_markval ⟨2, fun v => if v = 0 then [1] else [0]⟩
              ((⟨2, fun v => if v = 0 then [1] else [0]⟩ : MarkHeap).size + 1)
              ∅ 0
            = some (∅, []))) :=
  ⟨by unfold MarkHeap.Closed; decide, by decide,
    C7_gc_markval_terminates_on_cycles ⟨2, fun v => if v = 0 then [1] else [0]⟩
      (by unfold MarkHeap.Closed; decide) ∅ 0 (by decide)⟩

end GcC
